import Mathlib

/-!
Verification of the expense-tracker record store and summarizer
(src/expense_tracker.py) via a shallow embedding.

Modelling conventions:
- Python floats are modelled as exact rationals (ℚ); the algorithms only
  add and compare amounts, and JSON round-trips Python floats exactly, so
  the rational model preserves the structure of every computation.
- Strings are Lean `String`s; `str.lower()` is modelled on the ASCII range
  (the only range the repository's data uses).
- `datetime.strptime(s, "%Y-%m-%d")` is embedded following CPython's
  `_strptime` regular expression for this format:
  year `\d\d\d\d`, month `1[0-2]|0[1-9]|[1-9]`, day `3[01]|[12]\d|0[1-9]|[1-9]`,
  with literal hyphens and the whole string consumed, followed by the
  `datetime` constructor's calendar validation (year 1..9999, day bounded
  by the month length).
- `date.isocalendar()` is embedded following CPython's `_pydatetime`
  implementation (ordinal arithmetic with floor division).
-/

/-- ASCII range test on a character's code point. -/
def inRange (c : Char) (lo hi : Nat) : Bool :=
  lo ≤ c.toNat && c.toNat ≤ hi

/-- ASCII digit test (the regex `\d` for this format). -/
def isDigitC (c : Char) : Bool :=
  inRange c 48 57

/-- Numeric value of an ASCII digit character. -/
def digitVal (c : Char) : Nat :=
  c.toNat - 48

/-- The ASCII digit character for `n % 10`. -/
def digitChar (n : Nat) : Char :=
  Char.ofNat (48 + n % 10)

/-- Month field of the strptime regex, two-character alternatives
`1[0-2]|0[1-9]`. -/
def parseMonth2 (a b : Char) : Option Nat :=
  if inRange a 49 49 && inRange b 48 50 then some (10 + digitVal b)
  else if inRange a 48 48 && inRange b 49 57 then some (digitVal b)
  else none

/-- Day field of the strptime regex, two-character alternatives
`3[01]|[12]\d|0[1-9]`. -/
def parseDay2 (a b : Char) : Option Nat :=
  if inRange a 51 51 && inRange b 48 49 then some (30 + digitVal b)
  else if inRange a 49 50 && isDigitC b then some (10 * digitVal a + digitVal b)
  else if inRange a 48 48 && inRange b 49 57 then some (digitVal b)
  else none

/-- Day field: the remainder of the string must be exactly the day
(two-character alternatives, or the single-character alternative `[1-9]`);
any unconverted trailing data makes strptime raise. -/
def parseDayRest (cs : List Char) : Option Nat :=
  match cs with
  | [a] => if inRange a 49 57 then some (digitVal a) else none
  | [a, b] => parseDay2 a b
  | _ => none

/-- Month, separator and day of the strptime regex.  A one-character month
`[1-9]` is followed directly by the hyphen; the two-character month
alternatives require a digit in second position, so the two cases are
disjoint and no further backtracking arises. -/
def parseMD (cs : List Char) : Option (Nat × Nat) :=
  match cs with
  | a :: b :: rest =>
    if b = '-' then
      if inRange a 49 57 then (parseDayRest rest).map (fun d => (digitVal a, d))
      else none
    else
      match parseMonth2 a b, rest with
      | some m, c :: rest2 =>
        if c = '-' then (parseDayRest rest2).map (fun d => (m, d)) else none
      | _, _ => none
  | _ => none

/-- The full strptime pattern for `%Y-%m-%d`: exactly four year digits,
a hyphen, then month, hyphen, day consuming the whole string. -/
def parseYMD (cs : List Char) : Option (Nat × Nat × Nat) :=
  match cs with
  | c1 :: c2 :: c3 :: c4 :: c5 :: rest =>
    if c5 = '-' && isDigitC c1 && isDigitC c2 && isDigitC c3 && isDigitC c4 then
      match parseMD rest with
      | some (m, d) =>
        some (1000 * digitVal c1 + 100 * digitVal c2 + 10 * digitVal c3 + digitVal c4, m, d)
      | none => none
    else none
  | _ => none

/-- Gregorian leap-year predicate (as used by Python's calendar logic). -/
def isLeap (y : Nat) : Bool :=
  y % 4 == 0 && (y % 100 != 0 || y % 400 == 0)

/-- Length of month `m` in year `y` (`datetime`'s `_days_in_month`). -/
def daysInMonth (y m : Nat) : Nat :=
  match m with
  | 1 => 31
  | 2 => if isLeap y then 29 else 28
  | 3 => 31
  | 4 => 30
  | 5 => 31
  | 6 => 30
  | 7 => 31
  | 8 => 31
  | 9 => 30
  | 10 => 31
  | 11 => 30
  | 12 => 31
  | _ => 0

/-- The `datetime` constructor's validation of a parsed (year, month, day)
triple: MINYEAR ≤ year ≤ MAXYEAR, month and day within calendar bounds. -/
def isValidDateTriple (y m d : Nat) : Bool :=
  decide (1 ≤ y) && decide (y ≤ 9999) && decide (1 ≤ m) && decide (m ≤ 12) &&
  decide (1 ≤ d) && decide (d ≤ daysInMonth y m)

/-- Embeds `ExpenseTracker.validate_date`: true iff
`datetime.strptime(date_str, "%Y-%m-%d")` succeeds. -/
def validate_date (s : String) : Bool :=
  match parseYMD s.toList with
  | some (y, m, d) => isValidDateTriple y m d
  | none => false

/-- Days in all years before year `y` (`datetime._days_before_year`);
Python floor division is `Int.fdiv`. -/
def daysBeforeYear (y : Int) : Int :=
  365 * (y - 1) + (y - 1).fdiv 4 - (y - 1).fdiv 100 + (y - 1).fdiv 400

/-- Days in year `y` before month `m` (`datetime._days_before_month`). -/
def daysBeforeMonth (y m : Nat) : Nat :=
  (List.range (m - 1)).foldl (fun acc i => acc + daysInMonth y (i + 1)) 0

/-- Proleptic-Gregorian ordinal of a date (`datetime._ymd2ord`):
0001-01-01 has ordinal 1. -/
def ymd2ord (y m d : Nat) : Int :=
  daysBeforeYear y + daysBeforeMonth y m + d

/-- Ordinal of the Monday starting ISO week 1 of `year`
(`datetime._isoweek1monday`). -/
def isoweek1monday (year : Int) : Int :=
  let firstday := daysBeforeYear year + 1
  let firstweekday := (firstday + 6).emod 7
  let week1monday := firstday - firstweekday
  if firstweekday > 3 then week1monday + 7 else week1monday

/-- The week component of `date.isocalendar()` (CPython `_pydatetime`):
the 1-based ISO-8601 week number of the date. -/
def isoWeek (y m d : Nat) : Int :=
  let today := ymd2ord y m d
  let week := (today - isoweek1monday y).fdiv 7
  if week < 0 then (today - isoweek1monday ((y : Int) - 1)).fdiv 7 + 1
  else if week ≥ 52 && today ≥ isoweek1monday ((y : Int) + 1) then 1
  else week + 1

/-- The four ASCII digit characters of a year rendered zero-padded. -/
def pad4c (n : Nat) : List Char :=
  [digitChar (n / 1000 % 10), digitChar (n / 100 % 10), digitChar (n / 10 % 10), digitChar (n % 10)]

/-- The two ASCII digit characters of a zero-padded two-digit field. -/
def pad2c (n : Nat) : List Char :=
  [digitChar (n / 10 % 10), digitChar (n % 10)]

/-- Association lookup in the bucket mapping (Python dict access). -/
def lookupVal : List (String × ℚ) → String → Option ℚ
  | [], _ => none
  | (k, v) :: rest, key => if k = key then some v else lookupVal rest key

/-- Modelled from the spec: the strict `YYYY-MM-DD` calendar grammar the
claim describes — a four-digit year, a hyphen, a two-digit zero-padded
month, a hyphen and a two-digit zero-padded day, denoting a valid
Gregorian calendar date. -/
def isStrictYMD (s : String) : Bool :=
  match s.toList with
  | [y1, y2, y3, y4, s1, m1, m2, s2, d1, d2] =>
    isDigitC y1 && isDigitC y2 && isDigitC y3 && isDigitC y4 &&
    s1 == '-' && s2 == '-' &&
    isDigitC m1 && isDigitC m2 && isDigitC d1 && isDigitC d2 &&
    isValidDateTriple
      (1000 * digitVal y1 + 100 * digitVal y2 + 10 * digitVal y3 + digitVal y4)
      (10 * digitVal m1 + digitVal m2)
      (10 * digitVal d1 + digitVal d2)
  | _ => false

/-- The exact language of the strptime-based validator, stated
declaratively: a valid Gregorian date (year 1..9999) rendered as a
four-digit year, hyphen, month, hyphen, day, where the month and the day
are each either zero-padded two-digit or unpadded single-digit. -/
def LenientYMD (s : String) : Prop :=
  ∃ y m d mf df, 1 ≤ y ∧ y ≤ 9999 ∧ 1 ≤ m ∧ m ≤ 12 ∧ 1 ≤ d ∧ d ≤ daysInMonth y m ∧
    (mf = pad2c m ∨ (m ≤ 9 ∧ mf = [digitChar m])) ∧
    (df = pad2c d ∨ (d ≤ 9 ∧ df = [digitChar d])) ∧
    s.toList = pad4c y ++ '-' :: (mf ++ '-' :: df)

/-- A single expense entry (`Expense` in the source): amount, category,
date string.  The Python float amount is modelled as an exact rational. -/
structure Expense where
  amount : ℚ
  category : String
  date : String
deriving DecidableEq, Repr

/-- Python `str.lower()` on the ASCII range, as a list of code points:
uppercase letters are shifted to lowercase, everything else kept. -/
def lowerKey (s : String) : List Nat :=
  s.toList.map (fun c => if 65 ≤ c.toNat ∧ c.toNat ≤ 90 then c.toNat + 32 else c.toNat)

/-- Embeds `view_summary` choice 1: sum of amounts over entries whose category
matches the requested one case-insensitively. -/
def totalByCategory (l : List Expense) (category : String) : ℚ :=
  ((l.filter (fun e => lowerKey e.category == lowerKey category)).map (fun e => e.amount)).sum

/-- Embeds `view_summary` choice 2: sum of all amounts. -/
def totalOverall (l : List Expense) : ℚ :=
  (l.map (fun e => e.amount)).sum

/-- The three time granularities of `view_summary` choice 3. -/
inductive Granularity where
  | daily
  | monthly
  | weekly
deriving DecidableEq, Repr

/-- The period key the source computes for a parsed date:
daily uses the raw date string, monthly is `strftime("%Y-%m")`, weekly is
the f-string of the calendar year, a literal "-W" and the ISO week number
(no zero-padding). -/
def periodKey (g : Granularity) (y m d : Nat) (dateStr : String) : String :=
  match g with
  | .daily => dateStr
  | .monthly => String.mk (pad4c y) ++ "-" ++ String.mk (pad2c m)
  | .weekly => toString y ++ "-W" ++ toString (isoWeek y m d)

/-- The `defaultdict(float)` update `summary[key] += v`: accumulate into an
existing key or append a new one, preserving insertion order. -/
def upsert (acc : List (String × ℚ)) (k : String) (v : ℚ) : List (String × ℚ) :=
  match acc with
  | [] => [(k, v)]
  | (k1, v1) :: rest => if k1 = k then (k1, v1 + v) :: rest else (k1, v1) :: upsert rest k v

/-- One iteration of the `view_summary` time-bucketing loop: entries whose
date fails `validate_date` are skipped with a warning; otherwise the date
is re-parsed with strptime and the amount added to the period bucket.
(The `none` branch is unreachable: `validate_date` succeeding means the
same parse succeeds.) -/
def summaryStep (g : Granularity) (acc : List (String × ℚ)) (e : Expense) : List (String × ℚ) :=
  if validate_date e.date then
    match parseYMD e.date.toList with
    | some (y, m, d) => upsert acc (periodKey g y m d e.date) e.amount
    | none => acc
  else acc

/-- The time-bucketed summary mapping built by `view_summary` choice 3. -/
def view_summary_period (g : Granularity) (l : List Expense) : List (String × ℚ) :=
  l.foldl (summaryStep g) []

/-- The `category_totals` mapping `graphical_summary` hands to the chart
renderer: buckets by the exact category string. -/
def graphical_summary_data (l : List Expense) : List (String × ℚ) :=
  l.foldl (fun acc e => upsert acc e.category e.amount) []

/-- JSON values, the shape `json.load`/`json.dump` exchange. -/
inductive Json where
  | null
  | bool (b : Bool)
  | num (q : ℚ)
  | str (s : String)
  | arr (items : List Json)
  | obj (fields : List (String × Json))

/-- Python dict key lookup on a JSON object, `none` meaning `KeyError`. -/
def lookupField : List (String × Json) → String → Option Json
  | [], _ => none
  | (k, v) :: rest, key => if k = key then some v else lookupField rest key

/-- Uncaught Python exceptions that `load_from_file` can propagate. -/
inductive PyError where
  | keyError
  | typeError
deriving DecidableEq, Repr

/-- The recoverable failures of the record-store operations (reported by
printing in the source, then returning to the menu). -/
inductive TrackerErr where
  | invalidDate
  | indexOutOfRange
deriving DecidableEq, Repr

/-- Embeds `Expense.to_dict`. -/
def Expense.to_dict (e : Expense) : Json :=
  .obj [("amount", .num e.amount), ("category", .str e.category), ("date", .str e.date)]

/-- Embeds `Expense.from_dict`: the three subscript lookups raise `KeyError` on a
missing key; a non-object argument raises `TypeError` when subscripted.
(Python applies no validation to the field values: a wrongly-typed but
present field would be stored in the `Expense` as is and fail only at a
later use site.  The typed model cannot represent such an entry and
reports `typeError` at load in that branch instead; no theorem in this
development evaluates `from_dict` on a wrongly-typed field, so nothing
relies on this divergence.) -/
def Expense.from_dict (j : Json) : Except PyError Expense :=
  match j with
  | .obj fields =>
    match lookupField fields "amount" with
    | none => .error .keyError
    | some av =>
      match lookupField fields "category" with
      | none => .error .keyError
      | some cv =>
        match lookupField fields "date" with
        | none => .error .keyError
        | some dv =>
          match av, cv, dv with
          | .num a, .str c, .str d => .ok { amount := a, category := c, date := d }
          | _, _, _ => .error .typeError
  | _ => .error .typeError

/-- The list comprehension `[Expense.from_dict(item) for item in data]`:
the first exception aborts the whole comprehension. -/
def loadItems : List Json → Except PyError (List Expense)
  | [] => .ok []
  | j :: rest =>
    match Expense.from_dict j with
    | .error e => .error e
    | .ok x =>
      match loadItems rest with
      | .error e => .error e
      | .ok xs => .ok (x :: xs)

/-- What reading the storage file can observe: the file is missing
(`FileNotFoundError`), its content is not valid JSON (`JSONDecodeError`),
or it parses to a JSON value. -/
inductive FileState where
  | missing
  | notJson
  | json (j : Json)

/-- Embeds `ExpenseTracker.load_from_file`: a missing file and undecodable JSON
are caught (a message is printed and `self.expenses` is left as it was —
empty at startup); otherwise the comprehension
`[Expense.from_dict(item) for item in data]` iterates the decoded value
and any exception raised is uncaught (the process crashes).  Iteration
follows Python: a list yields its items, a dict yields its keys (strings)
and a string yields its one-character substrings — so the empty dict and
the empty string iterate empty and load as zero entries, while their
non-empty forms feed strings to `from_dict`, which raises `TypeError`
when it subscripts them; a number, boolean or null document is not
iterable and raises `TypeError` at the `for` itself. -/
def load_from_file (prev : List Expense) (f : FileState) : Except PyError (List Expense) :=
  match f with
  | .missing => .ok prev
  | .notJson => .ok prev
  | .json (.arr items) => loadItems items
  | .json (.obj fields) => loadItems (fields.map (fun kv => .str kv.1))
  | .json (.str s) => loadItems (s.toList.map (fun c => .str (String.mk [c])))
  | .json _ => .error .typeError

/-- Embeds `ExpenseTracker.save_to_file`: overwrite the file with the JSON array
of `to_dict` objects. -/
def save_to_file (l : List Expense) : FileState :=
  .json (.arr (l.map Expense.to_dict))

/-- Embeds `ExpenseTracker.add_expenses` after the driver has read amount,
category and date (`today` is `datetime.now().strftime("%Y-%m-%d")`):
returns the new list, the file content written (if any), and the error
reported (if any). -/
def add_expenses (l : List Expense) (amount : ℚ) (category : String) (date today : String) :
    List Expense × Option FileState × Option TrackerErr :=
  let d := if date = "" then today else date
  if validate_date d then
    let l2 := l ++ [{ amount := amount, category := category, date := d }]
    (l2, some (save_to_file l2), none)
  else (l, none, some .invalidDate)

/-- Embeds `ExpenseTracker.delete_expense` with the user's 1-based selection:
returns the new list, the removed entry (if any), and the error (if any).
The empty-store early return and the invalid-selection branch both leave
the list unchanged and delete nothing; both are reported here as
`indexOutOfRange`. -/
def delete_expense (l : List Expense) (choice : Int) :
    List Expense × Option Expense × Option TrackerErr :=
  if l = [] then (l, none, some .indexOutOfRange)
  else if 1 ≤ choice ∧ choice ≤ (l.length : Int) then
    (l.eraseIdx (choice - 1).toNat, l[(choice - 1).toNat]?, none)
  else (l, none, some .indexOutOfRange)

/-- Python `float(s)` on plain decimal literals (optional sign, digits,
optional fractional part).  Exponents, infinities and underscores are not
modelled; no claim exercises them. -/
def parseFloat (s : String) : Option ℚ :=
  let unsigned := fun (cs : List Char) =>
    let intPart := cs.takeWhile isDigitC
    let rest := cs.dropWhile isDigitC
    let valOf := fun (ds : List Char) => ds.foldl (fun a c => 10 * a + digitVal c) 0
    match rest with
    | [] => if intPart.isEmpty then none else some ((valOf intPart : ℚ))
    | '.' :: frac =>
      if frac.all isDigitC && !(intPart.isEmpty && frac.isEmpty) then
        some ((valOf intPart : ℚ) + (valOf frac : ℚ) / ((10 : ℚ) ^ frac.length))
      else none
    | _ => none
  match s.toList with
  | '-' :: cs => (unsigned cs).map Neg.neg
  | '+' :: cs => unsigned cs
  | cs => unsigned cs

/-- The field updates of `edit_expense` on the selected entry, in source
order: a non-empty amount is parsed and kept unchanged on failure, a
non-empty category is taken verbatim, a non-empty date is validated and
kept unchanged on failure. -/
def applyEdits (new_amount new_category new_date : String) (e : Expense) : Expense :=
  let e1 :=
    if new_amount ≠ "" then
      match parseFloat new_amount with
      | some a => { e with amount := a }
      | none => e
    else e
  let e2 := if new_category ≠ "" then { e1 with category := new_category } else e1
  if new_date ≠ "" then
    if validate_date new_date then { e2 with date := new_date } else e2
  else e2

/-- In-place mutation of the i-th list element. -/
def modifyAt : List Expense → Nat → (Expense → Expense) → List Expense
  | [], _, _ => []
  | e :: rest, 0, f => f e :: rest
  | e :: rest, n + 1, f => e :: modifyAt rest n f

/-- Embeds `ExpenseTracker.edit_expense` with the user's 1-based selection and
the three (possibly empty) replacement strings: returns the new list and
the error (if any).  As in `delete_expense`, the empty-store early return
and the invalid-selection branch are both `indexOutOfRange`. -/
def edit_expense (l : List Expense) (choice : Int)
    (new_amount new_category new_date : String) : List Expense × Option TrackerErr :=
  if l = [] then (l, some .indexOutOfRange)
  else if 1 ≤ choice ∧ choice ≤ (l.length : Int) then
    (modifyAt l (choice - 1).toNat (applyEdits new_amount new_category new_date), none)
  else (l, some .indexOutOfRange)

/-- First-seen representatives of the case-insensitive category classes:
`seen` accumulates the lowered keys already represented. -/
def dedupByLowerAux : List (List Nat) → List String → List String
  | _, [] => []
  | seen, c :: rest =>
    if lowerKey c ∈ seen then dedupByLowerAux seen rest
    else c :: dedupByLowerAux (lowerKey c :: seen) rest

/-- The distinct case-insensitive categories present in a list of entries,
each represented by its first-seen original-case string. -/
def distinctCategories (l : List Expense) : List String :=
  dedupByLowerAux [] (l.map (fun e => e.category))

example : view_summary_period .weekly [{ amount := 5, category := "Food", date := "2024-01-01" }]
    = [("2024-W1", 5)] := by decide
example : view_summary_period .monthly
    [{ amount := 5, category := "a", date := "2024-01-15" },
     { amount := 7, category := "b", date := "2024-01-20" }]
    = [("2024-01", 12)] := by
  have h : view_summary_period .monthly
      [{ amount := 5, category := "a", date := "2024-01-15" },
       { amount := 7, category := "b", date := "2024-01-20" }]
      = [("2024-01", (5 : ℚ) + 7)] := rfl
  rw [h]
  norm_num
example : graphical_summary_data
    [{ amount := 1, category := "Food", date := "x" },
     { amount := 2, category := "food", date := "y" }]
    = [("Food", 1), ("food", 2)] := by decide
example : load_from_file [] (.json (.arr [.obj []])) = .error .keyError := rfl
example : distinctCategories
    [{ amount := 1, category := "Food", date := "x" },
     { amount := 2, category := "food", date := "y" }] = ["Food"] := by decide

example : validate_date "2024-01-01" = true := by decide
example : validate_date "2024-02-30" = false := by decide
example : validate_date "2023-02-29" = false := by decide
example : validate_date "2024-1-1" = true := by decide
example : validate_date "2024-13-01" = false := by decide
example : validate_date "2024-01-001" = false := by decide
example : validate_date "0000-01-01" = false := by decide
example : validate_date "2024/01/01" = false := by decide
example : isoWeek 2024 1 1 = 1 := by decide
example : isoWeek 2023 1 1 = 52 := by decide
example : isoWeek 2024 12 30 = 1 := by decide
example : isoWeek 2021 1 1 = 53 := by decide

/-- A date string that `validate_date` accepts parses to the triple the
validation saw. -/
theorem validate_date_eq_true_of_parse {s : String} {y m d : Nat}
    (hp : parseYMD s.toList = some (y, m, d)) (hv : isValidDateTriple y m d = true) :
    validate_date s = true := by
  unfold validate_date
  rw [hp]
  exact hv

/-- The key just written is among the keys of the updated mapping. -/
theorem mem_keys_upsert_self (acc : List (String × ℚ)) (k : String) (v : ℚ) :
    k ∈ (upsert acc k v).map Prod.fst := by
  induction acc with
  | nil => simp [upsert]
  | cons p rest ih =>
    obtain ⟨k1, v1⟩ := p
    by_cases h : k1 = k <;> simp [upsert, h, ih]

/-- Updating a mapping keeps every existing key. -/
theorem mem_keys_upsert_of_mem {acc : List (String × ℚ)} {a : String} (k : String) (v : ℚ)
    (h : a ∈ acc.map Prod.fst) : a ∈ (upsert acc k v).map Prod.fst := by
  induction acc with
  | nil => simp at h
  | cons p rest ih =>
    obtain ⟨k1, v1⟩ := p
    rw [List.map_cons] at h
    rcases List.mem_cons.mp h with h1 | h1
    · by_cases hk : k1 = k
      · have hu : upsert ((k1, v1) :: rest) k v = (k1, v1 + v) :: rest := by
          simp [upsert, hk]
        rw [hu, List.map_cons, h1]
        exact List.mem_cons_self _ _
      · have hu : upsert ((k1, v1) :: rest) k v = (k1, v1) :: upsert rest k v := by
          simp [upsert, hk]
        rw [hu, List.map_cons, h1]
        exact List.mem_cons_self _ _
    · by_cases hk : k1 = k
      · have hu : upsert ((k1, v1) :: rest) k v = (k1, v1 + v) :: rest := by
          simp [upsert, hk]
        rw [hu, List.map_cons]
        exact List.mem_cons_of_mem _ h1
      · have hu : upsert ((k1, v1) :: rest) k v = (k1, v1) :: upsert rest k v := by
          simp [upsert, hk]
        rw [hu, List.map_cons]
        exact List.mem_cons_of_mem _ (ih h1)

/-- One bucketing step keeps every existing key. -/
theorem mem_keys_summaryStep_of_mem (g : Granularity) (e : Expense)
    {acc : List (String × ℚ)} {a : String} (h : a ∈ acc.map Prod.fst) :
    a ∈ (summaryStep g acc e).map Prod.fst := by
  unfold summaryStep
  by_cases hv : validate_date e.date
  · simp only [hv, if_pos]
    cases hp : parseYMD e.date.toList with
    | none => exact h
    | some t =>
      obtain ⟨y, m, d⟩ := t
      exact mem_keys_upsert_of_mem _ _ h
  · simp only [hv]
    simpa using h

/-- Folding the bucketing step over more entries keeps every existing key. -/
theorem mem_keys_foldl_of_mem (g : Granularity) (l : List Expense)
    {acc : List (String × ℚ)} {a : String} (h : a ∈ acc.map Prod.fst) :
    a ∈ (l.foldl (summaryStep g) acc).map Prod.fst := by
  induction l generalizing acc with
  | nil => simpa using h
  | cons e rest ih => exact ih (mem_keys_summaryStep_of_mem g e h)

/-- C1 (amended): in the weekly time-bucketed summary, every entry whose
date passes validation is bucketed under the key built from the calendar
year of the date, the literal "-W" and the unpadded ISO-8601 week number
(the code writes the f-string of `date_obj.year` and `isocalendar()[1]`
with no zero-padding, so 2024-01-01 gets key "2024-W1"). -/
theorem c1_weekly_key (l : List Expense) (e : Expense) (y m d : Nat)
    (hmem : e ∈ l) (hp : parseYMD e.date.toList = some (y, m, d))
    (hv : isValidDateTriple y m d = true) :
    (toString y ++ "-W" ++ toString (isoWeek y m d)) ∈
      (view_summary_period .weekly l).map Prod.fst := by
  unfold view_summary_period
  have general : ∀ (rest : List Expense) (acc : List (String × ℚ)), e ∈ rest →
      (toString y ++ "-W" ++ toString (isoWeek y m d)) ∈
        (rest.foldl (summaryStep .weekly) acc).map Prod.fst := by
    intro rest
    induction rest with
    | nil => intro acc hc; simp at hc
    | cons e1 tail ih =>
      intro acc hc
      rcases List.mem_cons.mp hc with he | he
      · subst he
        simp only [List.foldl_cons]
        apply mem_keys_foldl_of_mem
        unfold summaryStep
        rw [validate_date_eq_true_of_parse hp hv, if_pos rfl, hp]
        exact mem_keys_upsert_self _ _ _
      · simp only [List.foldl_cons]
        exact ih _ he
  exact general l [] hmem

/-- C1 witness: the singleton store dated 2024-01-01 is bucketed under the
computed weekly key (which evaluates to "2024-W1", not "2024-W01"). -/
theorem c1_weekly_key_witness :
    (toString 2024 ++ "-W" ++ toString (isoWeek 2024 1 1)) ∈
      (view_summary_period .weekly
        [{ amount := 5, category := "Food", date := "2024-01-01" }]).map Prod.fst :=
  c1_weekly_key [{ amount := 5, category := "Food", date := "2024-01-01" }]
    { amount := 5, category := "Food", date := "2024-01-01" } 2024 1 1
    (by simp) (by decide) (by decide)

/-- C1 counterexample: an entry dated 2024-01-01 is bucketed under the key
"2024-W1", not the zero-padded ISO form "2024-W01" the claim requires. -/
theorem c1_weekly_key_counterexample :
    view_summary_period .weekly [{ amount := 5, category := "Food", date := "2024-01-01" }]
      = [("2024-W1", 5)] ∧ "2024-W1" ≠ "2024-W01" :=
  ⟨by decide, by decide⟩

/-- C2 counterexample: two entries whose categories differ only in letter
case are NOT summed into one bucket; the chart data keeps two separate
buckets keyed by the exact category strings. -/
theorem c2_case_counterexample :
    graphical_summary_data
      [{ amount := 1, category := "Food", date := "2024-03-01" },
       { amount := 2, category := "food", date := "2024-03-02" }]
      = [("Food", 1), ("food", 2)] := by decide

/-- How a `defaultdict` update changes a lookup. -/
theorem lookupVal_upsert (acc : List (String × ℚ)) (k key : String) (v : ℚ) :
    lookupVal (upsert acc k v) key =
      if key = k then some ((lookupVal acc key).getD 0 + v) else lookupVal acc key := by
  induction acc with
  | nil =>
    by_cases h : key = k
    · subst h; simp [upsert, lookupVal]
    · have hne : ¬ k = key := fun hh => h hh.symm
      simp [upsert, lookupVal, h, hne]
  | cons p rest ih =>
    obtain ⟨k1, v1⟩ := p
    by_cases h1 : k1 = k
    · subst h1
      by_cases h2 : k1 = key
      · subst h2; simp [upsert, lookupVal]
      · have hne : ¬ key = k1 := fun hh => h2 hh.symm
        simp [upsert, lookupVal, h2, hne]
    · by_cases h2 : k1 = key
      · subst h2
        simp [upsert, lookupVal, h1]
      · simp [upsert, lookupVal, h1, h2, ih]

/-- Bucket lookup after folding the chart-data step, for any starting
accumulator. -/
theorem lookupVal_foldl_graphical (l : List Expense) (acc : List (String × ℚ)) (c : String) :
    lookupVal (l.foldl (fun acc2 e => upsert acc2 e.category e.amount) acc) c =
      if c ∈ l.map (fun e => e.category) then
        some ((lookupVal acc c).getD 0 +
          ((l.filter (fun e => e.category == c)).map (fun e => e.amount)).sum)
      else lookupVal acc c := by
  induction l generalizing acc with
  | nil => simp
  | cons e rest ih =>
    simp only [List.foldl_cons]
    rw [ih, lookupVal_upsert]
    by_cases hc : e.category = c
    · have hceq : c = e.category := hc.symm
      have hmem : c ∈ (e :: rest).map (fun e2 => e2.category) := by
        rw [List.map_cons, hceq]
        exact List.mem_cons_self _ _
      have hfil : (e :: rest).filter (fun e2 => e2.category == c)
          = e :: rest.filter (fun e2 => e2.category == c) := by
        simp [List.filter_cons, hc]
      rw [if_pos hceq, if_pos hmem, hfil, List.map_cons, List.sum_cons]
      by_cases hr : c ∈ rest.map (fun e2 => e2.category)
      · rw [if_pos hr]
        simp [add_assoc]
      · rw [if_neg hr]
        have hfil2 : rest.filter (fun e2 => e2.category == c) = [] := by
          rw [List.filter_eq_nil_iff]
          intro a ha hbeq
          exact hr (List.mem_map.mpr ⟨a, ha, by simpa using hbeq⟩)
        simp [hfil2]
    · have hne : ¬ c = e.category := fun hh => hc hh.symm
      have hfil : (e :: rest).filter (fun e2 => e2.category == c)
          = rest.filter (fun e2 => e2.category == c) := by
        simp [List.filter_cons, hc]
      rw [if_neg hne]
      by_cases hr : c ∈ rest.map (fun e2 => e2.category)
      · have hmem : c ∈ (e :: rest).map (fun e2 => e2.category) := by
          rw [List.map_cons]
          exact List.mem_cons_of_mem _ hr
        rw [if_pos hr, if_pos hmem, hfil]
      · have hmem : ¬ c ∈ (e :: rest).map (fun e2 => e2.category) := by
          rw [List.map_cons]
          intro hmm
          rcases List.mem_cons.mp hmm with h | h
          · exact hc h.symm
          · exact hr h
        rw [if_neg hr, if_neg hmem]

/-- C2 (amended): the category-totals mapping handed to the chart renderer
buckets entries by their EXACT category string (case-sensitively): a
category string is a key of the mapping iff some entry carries exactly
that string, and its bucket value is the sum of the amounts of exactly
those entries. -/
theorem c2_category_totals (l : List Expense) (c : String) :
    lookupVal (graphical_summary_data l) c =
      if c ∈ l.map (fun e => e.category) then
        some (((l.filter (fun e => e.category == c)).map (fun e => e.amount)).sum)
      else none := by
  unfold graphical_summary_data
  rw [lookupVal_foldl_graphical]
  by_cases h : c ∈ l.map (fun e => e.category) <;> simp [h, lookupVal]

/-- C3 counterexample: a file whose content is the valid JSON array
`[{}]` (an entry object with all three keys missing) makes load raise an
uncaught `KeyError` instead of reporting corrupt data and returning an
empty sequence. -/
theorem c3_load_counterexample :
    load_from_file [] (.json (.arr [.obj []])) = .error .keyError := rfl

/-- Converting saved entries back succeeds item by item. -/
theorem loadItems_map_to_dict (l : List Expense) :
    loadItems (l.map Expense.to_dict) = .ok l := by
  induction l with
  | nil => rfl
  | cons e rest ih =>
    simp only [List.map_cons, loadItems,
      show Expense.from_dict (Expense.to_dict e) = .ok e from rfl, ih]

/-- C3 (amended): load never crashes on a missing file (the current,
initially empty, list is kept as a normal first-run state) or on content
that is not valid JSON (a corruption message is printed and the current
list is kept); a well-formed array loads fully.  But the CorruptData
handling does not extend to other valid-JSON malformations: an array
containing an entry object with a missing key raises an uncaught
KeyError, a non-empty object or string document raises an uncaught
TypeError when its first element is fed to from_dict, a number document
raises an uncaught TypeError at the iteration itself — and the empty
object and empty string documents even load silently as zero entries
instead of being reported. -/
theorem c3_load_behavior :
    (∀ prev : List Expense, load_from_file prev .missing = .ok prev) ∧
    (∀ prev : List Expense, load_from_file prev .notJson = .ok prev) ∧
    (∀ (prev l : List Expense), load_from_file prev (save_to_file l) = .ok l) ∧
    (∀ prev : List Expense,
      load_from_file prev (.json (.arr [.obj [("amount", .num 1)]])) = .error .keyError) ∧
    (∀ (prev : List Expense) (v : Json),
      load_from_file prev (.json (.obj [("amount", v)])) = .error .typeError) ∧
    (∀ prev : List Expense,
      load_from_file prev (.json (.str "not valid json")) = .error .typeError) ∧
    (∀ (prev : List Expense) (q : ℚ),
      load_from_file prev (.json (.num q)) = .error .typeError) ∧
    (∀ prev : List Expense, load_from_file prev (.json (.obj [])) = .ok []) ∧
    (∀ prev : List Expense, load_from_file prev (.json (.str "")) = .ok []) :=
  ⟨fun _ => rfl, fun _ => rfl, fun _ l => loadItems_map_to_dict l, fun _ => rfl,
   fun _ _ => rfl, fun _ => rfl, fun _ _ => rfl, fun _ => rfl, fun _ => rfl⟩

/-- C5: saving a sequence of entries and loading from the same path yields
the same sequence, field by field and in order. -/
theorem c5_save_load_roundtrip (l prev : List Expense) (hne : l ≠ []) :
    load_from_file prev (save_to_file l) = .ok l :=
  loadItems_map_to_dict l

/-- C5 witness: round-trip on a concrete singleton store. -/
theorem c5_save_load_roundtrip_witness :
    load_from_file [] (save_to_file [{ amount := 1, category := "Food", date := "2024-03-01" }])
      = .ok [{ amount := 1, category := "Food", date := "2024-03-01" }] :=
  c5_save_load_roundtrip [{ amount := 1, category := "Food", date := "2024-03-01" }] []
    (by simp)

/-- C9: adding an expense substitutes today's date for an empty date
input; an invalid (possibly substituted) date aborts the operation with
`InvalidDate`, leaving the store unchanged and writing nothing; a valid
date appends the new entry at the end and persists the whole store. -/
theorem c9_add_expenses (l : List Expense) (a : ℚ) (cat date today : String) :
    (validate_date (if date = "" then today else date) = false →
        add_expenses l a cat date today = (l, none, some .invalidDate)) ∧
    (validate_date (if date = "" then today else date) = true →
        add_expenses l a cat date today =
          (l ++ [{ amount := a, category := cat, date := if date = "" then today else date }],
           some (save_to_file
             (l ++ [{ amount := a, category := cat, date := if date = "" then today else date }])),
           none)) := by
  constructor <;> intro h <;> simp [add_expenses, h]

/-- C9 witness: an empty date on system date 2024-03-01 appends an entry
dated 2024-03-01 and saves; the malformed date "bad-date" aborts with
`InvalidDate` and changes and writes nothing. -/
theorem c9_add_expenses_witness :
    add_expenses [] 250 "Food" "" "2024-03-01" =
      ([{ amount := 250, category := "Food", date := "2024-03-01" }],
       some (save_to_file [{ amount := 250, category := "Food", date := "2024-03-01" }]),
       none) ∧
    add_expenses [] 1 "x" "bad-date" "2024-03-01" = ([], none, some .invalidDate) :=
  ⟨(c9_add_expenses [] 250 "Food" "" "2024-03-01").2 (by decide),
   (c9_add_expenses [] 1 "x" "bad-date" "2024-03-01").1 (by decide)⟩

/-- A validated date string yields a parsed, validated triple. -/
theorem parse_of_validate {s : String} (h : validate_date s = true) :
    ∃ y m d, parseYMD s.toList = some (y, m, d) ∧ isValidDateTriple y m d = true := by
  unfold validate_date at h
  cases hp : parseYMD s.toList with
  | none => rw [hp] at h; exact absurd h (by simp)
  | some t =>
    obtain ⟨y, m, d⟩ := t
    rw [hp] at h
    exact ⟨y, m, d, rfl, h⟩

/-- A `defaultdict` update adds exactly its increment to the total of the
mapping's values. -/
theorem sum_snd_upsert (acc : List (String × ℚ)) (k : String) (v : ℚ) :
    ((upsert acc k v).map Prod.snd).sum = (acc.map Prod.snd).sum + v := by
  induction acc with
  | nil => simp [upsert]
  | cons p rest ih =>
    obtain ⟨k1, v1⟩ := p
    by_cases h : k1 = k
    · simp [upsert, h]
      ring
    · simp [upsert, h, ih]
      ring

/-- One bucketing step adds the entry's amount to the running total iff
the entry's date validates. -/
theorem sum_snd_summaryStep (g : Granularity) (acc : List (String × ℚ)) (e : Expense) :
    ((summaryStep g acc e).map Prod.snd).sum =
      (acc.map Prod.snd).sum + (if validate_date e.date then e.amount else 0) := by
  by_cases hv : validate_date e.date
  · obtain ⟨y, m, d, hp, _⟩ := parse_of_validate hv
    have hp2 : parseYMD e.date.data = some (y, m, d) := hp
    simp [summaryStep, hv, hp, hp2, sum_snd_upsert]
  · simp [summaryStep, hv]

/-- C10: for every store and granularity, the total of the time-bucketed
summary's values equals the sum of amounts over exactly the entries whose
date passes `validate_date`; consequently, when every date is valid, the
bucketed total equals the overall total. -/
theorem c10_bucketed_total (l : List Expense) (g : Granularity) :
    ((view_summary_period g l).map Prod.snd).sum =
      ((l.filter (fun e => validate_date e.date)).map (fun e => e.amount)).sum ∧
    ((∀ e ∈ l, validate_date e.date = true) →
      ((view_summary_period g l).map Prod.snd).sum = totalOverall l) := by
  have general : ∀ acc, ((l.foldl (summaryStep g) acc).map Prod.snd).sum =
      (acc.map Prod.snd).sum +
        ((l.filter (fun e => validate_date e.date)).map (fun e => e.amount)).sum := by
    induction l with
    | nil => simp
    | cons e rest ih =>
      intro acc
      simp only [List.foldl_cons]
      rw [ih, sum_snd_summaryStep]
      by_cases hv : validate_date e.date
      · simp [List.filter_cons, hv]
        ring
      · simp [List.filter_cons, hv]
  have main : ((view_summary_period g l).map Prod.snd).sum =
      ((l.filter (fun e => validate_date e.date)).map (fun e => e.amount)).sum := by
    have h := general []
    simpa [view_summary_period] using h
  refine ⟨main, fun hall => ?_⟩
  rw [main, List.filter_eq_self.mpr hall]
  rfl

/-- C10 witness: on an all-valid store, the bucketed total equals the
overall total. -/
theorem c10_bucketed_total_witness :
    ((view_summary_period .daily
        [{ amount := 5, category := "Food", date := "2024-01-01" },
         { amount := 7, category := "Rent", date := "2024-01-02" }]).map Prod.snd).sum =
      totalOverall
        [{ amount := 5, category := "Food", date := "2024-01-01" },
         { amount := 7, category := "Rent", date := "2024-01-02" }] :=
  (c10_bucketed_total
      [{ amount := 5, category := "Food", date := "2024-01-01" },
       { amount := 7, category := "Rent", date := "2024-01-02" }] .daily).2
    (by decide)

/-- Per-category total of a cons: the head contributes iff its category
matches case-insensitively. -/
theorem totalByCategory_cons (e : Expense) (t : List Expense) (c : String) :
    totalByCategory (e :: t) c =
      (if lowerKey e.category = lowerKey c then e.amount else 0) + totalByCategory t c := by
  by_cases h : lowerKey e.category = lowerKey c
  · simp [totalByCategory, List.filter_cons, h]
  · simp [totalByCategory, List.filter_cons, h]

/-- Summing a pointwise sum of two functions over a list of categories. -/
theorem sum_map_addQ (ks : List String) (f g : String → ℚ) :
    (ks.map (fun c => f c + g c)).sum = (ks.map f).sum + (ks.map g).sum := by
  induction ks with
  | nil => simp
  | cons a t ih =>
    simp [ih]
    ring

/-- If no representative has the given lowered key, the indicator sum
vanishes. -/
theorem sum_indicator_zero (ks : List String) (key : List Nat) (a : ℚ)
    (h : ¬ key ∈ ks.map lowerKey) :
    (ks.map (fun c => if key = lowerKey c then a else 0)).sum = 0 := by
  induction ks with
  | nil => simp
  | cons c0 t ih =>
    rw [List.map_cons] at h
    have h0 : ¬ key = lowerKey c0 := fun hh => h (hh ▸ List.mem_cons_self _ _)
    have ht : ¬ key ∈ t.map lowerKey := fun hh => h (List.mem_cons_of_mem _ hh)
    simp only [List.map_cons, List.sum_cons, if_neg h0, ih ht, zero_add]

/-- If the lowered keys of the representatives are pairwise distinct and
one of them equals the given key, the indicator sum picks out `a` once. -/
theorem sum_indicator_one (ks : List String) (key : List Nat) (a : ℚ)
    (hnd : (ks.map lowerKey).Nodup) (hmem : ∃ c ∈ ks, lowerKey c = key) :
    (ks.map (fun c => if key = lowerKey c then a else 0)).sum = a := by
  induction ks with
  | nil => simp at hmem
  | cons c0 t ih =>
    rw [List.map_cons, List.nodup_cons] at hnd
    obtain ⟨c, hc, hck⟩ := hmem
    rcases List.mem_cons.mp hc with h | h
    · subst h
      rw [← hck]
      simp only [List.map_cons, List.sum_cons]
      rw [sum_indicator_zero t (lowerKey c) a hnd.1]
      simp
    · have hne : ¬ key = lowerKey c0 := by
        intro hh
        exact hnd.1 ((hck.trans hh) ▸ List.mem_map.mpr ⟨c, h, rfl⟩)
      simp only [List.map_cons, List.sum_cons, if_neg hne]
      rw [ih hnd.2 ⟨c, h, hck⟩]
      ring

/-- Summing the per-representative category totals over any family of
representatives whose lowered keys are distinct and cover every entry
gives the overall total. -/
theorem sum_totalByCategory_eq (l : List Expense) (ks : List String)
    (hnd : (ks.map lowerKey).Nodup) :
    (∀ e ∈ l, ∃ c ∈ ks, lowerKey c = lowerKey e.category) →
    (ks.map (fun c => totalByCategory l c)).sum = totalOverall l := by
  induction l with
  | nil =>
    intro _
    have h0 : ∀ c, totalByCategory ([] : List Expense) c = 0 := fun c => rfl
    simp [h0, totalOverall]
  | cons e t ih =>
    intro hcov
    simp only [totalByCategory_cons]
    rw [sum_map_addQ, sum_indicator_one ks (lowerKey e.category) e.amount hnd
        (hcov e (List.mem_cons_self _ _)),
      ih (fun e2 he2 => hcov e2 (List.mem_cons_of_mem _ he2))]
    simp [totalOverall]

/-- The first-seen representatives have pairwise distinct lowered keys,
none of them already in `seen`. -/
theorem dedupByLowerAux_nodup (xs : List String) :
    ∀ seen : List (List Nat),
      ((dedupByLowerAux seen xs).map lowerKey).Nodup ∧
      ∀ k ∈ (dedupByLowerAux seen xs).map lowerKey, ¬ k ∈ seen := by
  induction xs with
  | nil =>
    intro seen
    simp [dedupByLowerAux]
  | cons c rest ih =>
    intro seen
    by_cases h : lowerKey c ∈ seen
    · have hd : dedupByLowerAux seen (c :: rest) = dedupByLowerAux seen rest := by
        simp [dedupByLowerAux, h]
      rw [hd]
      exact ih seen
    · have hd : dedupByLowerAux seen (c :: rest)
          = c :: dedupByLowerAux (lowerKey c :: seen) rest := by
        simp [dedupByLowerAux, h]
      rw [hd, List.map_cons]
      obtain ⟨hnd, havoid⟩ := ih (lowerKey c :: seen)
      constructor
      · rw [List.nodup_cons]
        exact ⟨fun hmem => (havoid _ hmem) (List.mem_cons_self _ _), hnd⟩
      · intro k hk
        rcases List.mem_cons.mp hk with h1 | h1
        · exact h1 ▸ h
        · exact fun hs => (havoid k h1) (List.mem_cons_of_mem _ hs)

/-- Every string of the input is represented (unless its lowered key was
already in `seen`). -/
theorem dedupByLowerAux_cover (xs : List String) :
    ∀ (seen : List (List Nat)) (x : String), x ∈ xs →
      lowerKey x ∈ seen ∨ ∃ c ∈ dedupByLowerAux seen xs, lowerKey c = lowerKey x := by
  induction xs with
  | nil =>
    intro seen x hx
    simp at hx
  | cons c rest ih =>
    intro seen x hx
    by_cases h : lowerKey c ∈ seen
    · have hd : dedupByLowerAux seen (c :: rest) = dedupByLowerAux seen rest := by
        simp [dedupByLowerAux, h]
      rw [hd]
      rcases List.mem_cons.mp hx with h1 | h1
      · left
        rw [h1]
        exact h
      · exact ih seen x h1
    · have hd : dedupByLowerAux seen (c :: rest)
          = c :: dedupByLowerAux (lowerKey c :: seen) rest := by
        simp [dedupByLowerAux, h]
      rw [hd]
      rcases List.mem_cons.mp hx with h1 | h1
      · right
        exact ⟨c, List.mem_cons_self _ _, by rw [h1]⟩
      · rcases ih (lowerKey c :: seen) x h1 with h2 | h2
        · rcases List.mem_cons.mp h2 with h3 | h3
          · right
            exact ⟨c, List.mem_cons_self _ _, h3.symm⟩
          · left
            exact h3
        · obtain ⟨c2, hc2, hck⟩ := h2
          right
          exact ⟨c2, List.mem_cons_of_mem _ hc2, hck⟩

/-- C6: the overall total equals the sum of the per-category totals taken
over the distinct case-insensitive categories present in the store — the
case-insensitive buckets partition the entries, counting no amount twice
and dropping none. -/
theorem c6_total_partition (l : List Expense) :
    ((distinctCategories l).map (fun c => totalByCategory l c)).sum = totalOverall l := by
  have hnd : ((distinctCategories l).map lowerKey).Nodup :=
    (dedupByLowerAux_nodup (l.map (fun e : Expense => e.category)) []).1
  apply sum_totalByCategory_eq l (distinctCategories l) hnd
  intro e he
  have hx : e.category ∈ l.map (fun e2 => e2.category) := List.mem_map.mpr ⟨e, he, rfl⟩
  rcases dedupByLowerAux_cover (l.map (fun e2 => e2.category)) [] e.category hx with h | h
  · simp at h
  · exact h

/-- Positions before the erased index are untouched. -/
theorem getElem?_eraseIdx_lt (l : List Expense) (i j : Nat) (h : j < i) :
    (l.eraseIdx i)[j]? = l[j]? := by
  induction l generalizing i j with
  | nil => simp [List.eraseIdx]
  | cons e t ih =>
    cases i with
    | zero => exact absurd h (by omega)
    | succ i2 =>
      cases j with
      | zero => simp [List.eraseIdx]
      | succ j2 =>
        simp only [List.eraseIdx, List.getElem?_cons_succ]
        exact ih i2 j2 (by omega)

/-- Positions from the erased index on shift down by one. -/
theorem getElem?_eraseIdx_ge (l : List Expense) (i j : Nat) (hi : i < l.length)
    (h : i ≤ j) : (l.eraseIdx i)[j]? = l[j + 1]? := by
  induction l generalizing i j with
  | nil => simp at hi
  | cons e t ih =>
    cases i with
    | zero => simp [List.eraseIdx]
    | succ i2 =>
      cases j with
      | zero => exact absurd h (by omega)
      | succ j2 =>
        simp only [List.eraseIdx, List.getElem?_cons_succ]
        exact ih i2 j2 (by simpa using hi) (by omega)

/-- Erasing a present index shortens the list by one. -/
theorem length_eraseIdx_pres (l : List Expense) (i : Nat) (hi : i < l.length) :
    (l.eraseIdx i).length = l.length - 1 := by
  induction l generalizing i with
  | nil => simp at hi
  | cons e t ih =>
    cases i with
    | zero => simp [List.eraseIdx]
    | succ i2 =>
      have ht : i2 < t.length := by simpa using hi
      have hlen : t.length ≥ 1 := by omega
      simp only [List.eraseIdx, List.length_cons, ih i2 ht]
      omega

/-- C7: for a 1-based selection within [1, count], delete removes and
returns exactly the selected entry: the result is one shorter, earlier
positions are unchanged and later positions shift down by one; for a
selection outside [1, count] (including the empty-store early return),
delete fails with the index error and leaves the store unchanged. -/
theorem c7_delete (l : List Expense) (choice : Int) :
    ((1 ≤ choice ∧ choice ≤ (l.length : Int)) →
      (delete_expense l choice).2.2 = none ∧
      (delete_expense l choice).2.1 = l[(choice - 1).toNat]? ∧
      (delete_expense l choice).1.length = l.length - 1 ∧
      (∀ j : Nat, j < (choice - 1).toNat → ((delete_expense l choice).1)[j]? = l[j]?) ∧
      (∀ j : Nat, (choice - 1).toNat ≤ j → ((delete_expense l choice).1)[j]? = l[j + 1]?)) ∧
    (¬ (1 ≤ choice ∧ choice ≤ (l.length : Int)) →
      (delete_expense l choice).1 = l ∧ (delete_expense l choice).2.1 = none ∧
      (delete_expense l choice).2.2 = some .indexOutOfRange) := by
  constructor
  · intro h
    obtain ⟨h1, h2⟩ := h
    have hne : l ≠ [] := by
      intro hnil
      subst hnil
      simp at h2
      omega
    have hidx : (choice - 1).toNat < l.length := by omega
    have hd : delete_expense l choice
        = (l.eraseIdx (choice - 1).toNat, l[(choice - 1).toNat]?, none) := by
      simp [delete_expense, hne, h1, h2]
    rw [hd]
    exact ⟨rfl, rfl, length_eraseIdx_pres l _ hidx,
      fun j hj => getElem?_eraseIdx_lt l _ j hj,
      fun j hj => getElem?_eraseIdx_ge l _ j hidx hj⟩
  · intro h
    by_cases hnil : l = []
    · subst hnil
      simp [delete_expense]
    · simp [delete_expense, hnil, h]

/-- C7 witness: deleting entry 2 of a 3-entry store returns that entry,
while selection 5 is rejected unchanged. -/
theorem c7_delete_witness :
    (delete_expense
        [{ amount := 1, category := "a", date := "2024-01-01" },
         { amount := 2, category := "b", date := "2024-01-02" },
         { amount := 3, category := "c", date := "2024-01-03" }] 2).2.1
      = [{ amount := 1, category := "a", date := "2024-01-01" },
         { amount := 2, category := "b", date := "2024-01-02" },
         { amount := 3, category := "c", date := "2024-01-03" }][((2 : Int) - 1).toNat]? ∧
    (delete_expense
        [{ amount := 1, category := "a", date := "2024-01-01" },
         { amount := 2, category := "b", date := "2024-01-02" },
         { amount := 3, category := "c", date := "2024-01-03" }] 5).1
      = [{ amount := 1, category := "a", date := "2024-01-01" },
         { amount := 2, category := "b", date := "2024-01-02" },
         { amount := 3, category := "c", date := "2024-01-03" }] :=
  ⟨((c7_delete
      [{ amount := 1, category := "a", date := "2024-01-01" },
       { amount := 2, category := "b", date := "2024-01-02" },
       { amount := 3, category := "c", date := "2024-01-03" }] 2).1 (by decide)).2.1,
   ((c7_delete
      [{ amount := 1, category := "a", date := "2024-01-01" },
       { amount := 2, category := "b", date := "2024-01-02" },
       { amount := 3, category := "c", date := "2024-01-03" }] 5).2 (by decide)).1⟩

/-- What in-place mutation of position `i` does to each position. -/
theorem getElem?_modifyAt (l : List Expense) (f : Expense → Expense) (i j : Nat) :
    (modifyAt l i f)[j]? = if j = i then (l[j]?).map f else l[j]? := by
  induction l generalizing i j with
  | nil => simp [modifyAt]
  | cons e t ih =>
    cases i with
    | zero =>
      cases j with
      | zero => simp [modifyAt]
      | succ j2 => simp [modifyAt]
    | succ i2 =>
      cases j with
      | zero => simp [modifyAt]
      | succ j2 =>
        simp only [modifyAt, List.getElem?_cons_succ, ih i2 j2]
        by_cases hj : j2 = i2
        · simp [hj]
        · simp [hj, fun hh : j2 + 1 = i2 + 1 => hj (by omega)]

/-- C8: editing a valid selection with only a new category (amount and
date inputs empty) succeeds, replaces just the category field of the
selected entry, and leaves its amount and date and every other entry
untouched. -/
theorem c8_edit_category_only (l : List Expense) (choice : Int) (c : String)
    (hv : 1 ≤ choice ∧ choice ≤ (l.length : Int)) (hc : c ≠ "") :
    (edit_expense l choice "" c "").2 = none ∧
    ∀ j : Nat, ((edit_expense l choice "" c "").1)[j]? =
      (if j = (choice - 1).toNat
       then (l[j]?).map (fun e => { e with category := c }) else l[j]?) := by
  obtain ⟨h1, h2⟩ := hv
  have hne : l ≠ [] := by
    intro hnil
    subst hnil
    simp at h2
    omega
  have happ : applyEdits "" c "" = fun e => { e with category := c } := by
    funext e
    simp [applyEdits, hc]
  have hd : edit_expense l choice "" c ""
      = (modifyAt l (choice - 1).toNat (applyEdits "" c ""), none) := by
    simp [edit_expense, hne, h1, h2]
  rw [hd, happ]
  exact ⟨rfl, fun j => getElem?_modifyAt l _ _ j⟩

/-- C8 witness: editing entry 1 of a 2-entry store with only the category
"Transport" replaces just that entry's category. -/
theorem c8_edit_category_only_witness :
    (edit_expense
        [{ amount := 1, category := "a", date := "2024-01-01" },
         { amount := 2, category := "b", date := "2024-01-02" }] 1 "" "Transport" "").2 = none ∧
    ((edit_expense
        [{ amount := 1, category := "a", date := "2024-01-01" },
         { amount := 2, category := "b", date := "2024-01-02" }] 1 "" "Transport" "").1)[0]? =
      (if 0 = ((1 : Int) - 1).toNat
       then (([{ amount := 1, category := "a", date := "2024-01-01" },
               { amount := 2, category := "b", date := "2024-01-02" }] : List Expense)[0]?).map
         (fun e => { e with category := "Transport" })
       else ([{ amount := 1, category := "a", date := "2024-01-01" },
              { amount := 2, category := "b", date := "2024-01-02" }] : List Expense)[0]?) := by
  have h := c8_edit_category_only
    [{ amount := 1, category := "a", date := "2024-01-01" },
     { amount := 2, category := "b", date := "2024-01-02" }] 1 "Transport"
    (by decide) (by decide)
  exact ⟨h.1, h.2 0⟩

/-- Code point of a digit character. -/
theorem digitChar_toNat (n : Nat) : (digitChar n).toNat = 48 + n % 10 := by
  have hlt : n % 10 < 10 := Nat.mod_lt _ (by norm_num)
  have hall : ∀ k, k < 10 → (Char.ofNat (48 + k)).toNat = 48 + k := by decide
  exact hall (n % 10) hlt

/-- Digit characters are digits. -/
theorem isDigitC_digitChar (n : Nat) : isDigitC (digitChar n) = true := by
  have h := digitChar_toNat n
  have hlt : n % 10 < 10 := Nat.mod_lt _ (by norm_num)
  simp [isDigitC, inRange, h]
  omega

/-- The numeric value of a digit character. -/
theorem digitVal_digitChar (n : Nat) : digitVal (digitChar n) = n % 10 := by
  simp [digitVal, digitChar_toNat]

/-- Characters with equal code points are equal. -/
theorem char_eq_of_toNat_eq {a b : Char} (h : a.toNat = b.toNat) : a = b := by
  have h2 := congrArg Char.ofNat h
  rwa [Char.ofNat_toNat, Char.ofNat_toNat] at h2

/-- Bounds of an ASCII digit's code point. -/
theorem isDigitC_bounds {c : Char} (h : isDigitC c = true) :
    48 ≤ c.toNat ∧ c.toNat ≤ 57 := by
  simpa [isDigitC, inRange] using h

/-- A digit's value is at most 9. -/
theorem digitVal_le_9 {c : Char} (h : isDigitC c = true) : digitVal c ≤ 9 := by
  obtain ⟨h1, h2⟩ := isDigitC_bounds h
  simp [digitVal]
  omega

/-- A digit character round-trips through its value. -/
theorem digitChar_of_isDigit {c : Char} (h : isDigitC c = true) :
    digitChar (digitVal c) = c := by
  obtain ⟨h1, h2⟩ := isDigitC_bounds h
  apply char_eq_of_toNat_eq
  rw [digitChar_toNat]
  simp [digitVal]
  omega

/-- Digit characters are never the hyphen. -/
theorem digitChar_ne_hyphen (n : Nat) : digitChar n ≠ '-' := by
  intro h
  have h2 := congrArg Char.toNat h
  rw [digitChar_toNat] at h2
  have : ('-' : Char).toNat = 45 := by decide
  omega

/-- Any month is at most 31 days long. -/
theorem daysInMonth_le_31 (y m : Nat) : daysInMonth y m ≤ 31 := by
  unfold daysInMonth
  split <;> try omega
  split <;> omega

/-- The parser accepts a zero-padded two-digit month. -/
theorem parseMonth2_pad2 (m : Nat) (h1 : 1 ≤ m) (h2 : m ≤ 12) :
    parseMonth2 (digitChar (m / 10 % 10)) (digitChar (m % 10)) = some m := by
  interval_cases m <;> decide

/-- The parser accepts a zero-padded two-digit day. -/
theorem parseDayRest_pad2 (d : Nat) (h1 : 1 ≤ d) (h2 : d ≤ 31) :
    parseDayRest (pad2c d) = some d := by
  interval_cases d <;> decide

/-- The parser accepts an unpadded single-digit day. -/
theorem parseDayRest_single (d : Nat) (h1 : 1 ≤ d) (h2 : d ≤ 9) :
    parseDayRest [digitChar d] = some d := by
  interval_cases d <;> decide

/-- Reduction of the full pattern on four digit characters and a
hyphen. -/
theorem parseYMD_shape (b1 b2 b3 b4 : Nat) (rest : List Char) :
    parseYMD (digitChar b1 :: digitChar b2 :: digitChar b3 :: digitChar b4 :: '-' :: rest) =
      match parseMD rest with
      | some (m, d) =>
        some (1000 * (b1 % 10) + 100 * (b2 % 10) + 10 * (b3 % 10) + b4 % 10, m, d)
      | none => none := by
  simp only [parseYMD, isDigitC_digitChar, digitVal_digitChar]
  simp

/-- Reduction of the month-day pattern on a zero-padded month. -/
theorem parseMD_pad2_month (m : Nat) (h1 : 1 ≤ m) (h2 : m ≤ 12) (df : List Char) :
    parseMD (pad2c m ++ '-' :: df) = (parseDayRest df).map (fun d => (m, d)) := by
  have hb : digitChar (m % 10) ≠ '-' := digitChar_ne_hyphen _
  simp only [pad2c, List.cons_append, List.nil_append, parseMD, hb, if_false,
    parseMonth2_pad2 m h1 h2]
  simp

/-- Reduction of the month-day pattern on an unpadded month. -/
theorem parseMD_single_month (m : Nat) (h1 : 1 ≤ m) (h9 : m ≤ 9) (df : List Char) :
    parseMD (digitChar m :: '-' :: df) = (parseDayRest df).map (fun d => (m, d)) := by
  have hr : inRange (digitChar m) 49 57 = true := by
    simp [inRange, digitChar_toNat]
    omega
  have hv : digitVal (digitChar m) = m := by
    rw [digitVal_digitChar]
    omega
  simp [parseMD, hr, hv]

/-- A lenient rendering is accepted by the validator. -/
theorem validate_of_lenient {s : String} (h : LenientYMD s) : validate_date s = true := by
  obtain ⟨y, m, d, mf, df, hy1, hy2, hm1, hm12, hd1, hdm, hmf, hdf, hs⟩ := h
  have hd31 : d ≤ 31 := le_trans hdm (daysInMonth_le_31 y m)
  unfold validate_date
  rw [hs]
  have hform : pad4c y ++ '-' :: (mf ++ '-' :: df) =
      digitChar (y / 1000 % 10) :: digitChar (y / 100 % 10) :: digitChar (y / 10 % 10) ::
        digitChar (y % 10) :: '-' :: (mf ++ '-' :: df) := by
    simp [pad4c]
  rw [hform, parseYMD_shape]
  have hmd : parseMD (mf ++ '-' :: df) = (parseDayRest df).map (fun dd => (m, dd)) := by
    rcases hmf with hmf | ⟨hm9, hmf⟩
    · rw [hmf]
      exact parseMD_pad2_month m hm1 hm12 df
    · rw [hmf]
      exact parseMD_single_month m hm1 hm9 df
  rw [hmd]
  have hdr : parseDayRest df = some d := by
    rcases hdf with hdf | ⟨hd9, hdf⟩
    · rw [hdf]
      exact parseDayRest_pad2 d hd1 hd31
    · rw [hdf]
      exact parseDayRest_single d hd1 hd9
  rw [hdr]
  have hyy : 1000 * (y / 1000 % 10) + 100 * (y / 100 % 10) + 10 * (y / 10 % 10) + y % 10
      = y := by omega
  simp [hyy, isValidDateTriple, hy1, hy2, hm1, hm12, hd1, hdm]

/-- Inversion of the two-digit month field. -/
theorem parseMonth2_inv {a b : Char} {m : Nat} (h : parseMonth2 a b = some m) :
    1 ≤ m ∧ m ≤ 12 ∧ a = digitChar (m / 10 % 10) ∧ b = digitChar (m % 10) := by
  unfold parseMonth2 at h
  split_ifs at h with h1 h2
  · injection h with hm
    simp only [inRange, Bool.and_eq_true, decide_eq_true_eq] at h1
    obtain ⟨⟨ha1, ha2⟩, hb1, hb2⟩ := h1
    have hdb : digitVal b = b.toNat - 48 := rfl
    have hm2 : m = 10 + (b.toNat - 48) := by rw [← hm, hdb]
    refine ⟨by omega, by omega, ?_, ?_⟩
    · apply char_eq_of_toNat_eq
      rw [digitChar_toNat]
      omega
    · apply char_eq_of_toNat_eq
      rw [digitChar_toNat]
      omega
  · injection h with hm
    simp only [inRange, Bool.and_eq_true, decide_eq_true_eq] at h2
    obtain ⟨⟨ha1, ha2⟩, hb1, hb2⟩ := h2
    have hdb : digitVal b = b.toNat - 48 := rfl
    have hm2 : m = b.toNat - 48 := by rw [← hm, hdb]
    refine ⟨by omega, by omega, ?_, ?_⟩
    · apply char_eq_of_toNat_eq
      rw [digitChar_toNat]
      omega
    · apply char_eq_of_toNat_eq
      rw [digitChar_toNat]
      omega

/-- Inversion of the two-digit day field. -/
theorem parseDay2_inv {a b : Char} {d : Nat} (h : parseDay2 a b = some d) :
    1 ≤ d ∧ d ≤ 31 ∧ a = digitChar (d / 10 % 10) ∧ b = digitChar (d % 10) := by
  unfold parseDay2 at h
  split_ifs at h with h1 h2 h3
  · injection h with hd
    simp only [inRange, Bool.and_eq_true, decide_eq_true_eq] at h1
    obtain ⟨⟨ha1, ha2⟩, hb1, hb2⟩ := h1
    have hdb : digitVal b = b.toNat - 48 := rfl
    have hd2 : d = 30 + (b.toNat - 48) := by rw [← hd, hdb]
    refine ⟨by omega, by omega, ?_, ?_⟩
    · apply char_eq_of_toNat_eq
      rw [digitChar_toNat]
      omega
    · apply char_eq_of_toNat_eq
      rw [digitChar_toNat]
      omega
  · injection h with hd
    simp only [inRange, isDigitC, Bool.and_eq_true, decide_eq_true_eq] at h2
    obtain ⟨⟨ha1, ha2⟩, hb1, hb2⟩ := h2
    have hda : digitVal a = a.toNat - 48 := rfl
    have hdb : digitVal b = b.toNat - 48 := rfl
    have hd2 : d = 10 * (a.toNat - 48) + (b.toNat - 48) := by rw [← hd, hda, hdb]
    refine ⟨by omega, by omega, ?_, ?_⟩
    · apply char_eq_of_toNat_eq
      rw [digitChar_toNat]
      omega
    · apply char_eq_of_toNat_eq
      rw [digitChar_toNat]
      omega
  · injection h with hd
    simp only [inRange, Bool.and_eq_true, decide_eq_true_eq] at h3
    obtain ⟨⟨ha1, ha2⟩, hb1, hb2⟩ := h3
    have hdb : digitVal b = b.toNat - 48 := rfl
    have hd2 : d = b.toNat - 48 := by rw [← hd, hdb]
    refine ⟨by omega, by omega, ?_, ?_⟩
    · apply char_eq_of_toNat_eq
      rw [digitChar_toNat]
      omega
    · apply char_eq_of_toNat_eq
      rw [digitChar_toNat]
      omega

/-- Inversion of the day remainder: it is a padded pair or a single
digit. -/
theorem parseDayRest_inv {df : List Char} {d : Nat} (h : parseDayRest df = some d) :
    1 ≤ d ∧ d ≤ 31 ∧ (df = pad2c d ∨ (d ≤ 9 ∧ df = [digitChar d])) := by
  rcases df with _ | ⟨a, df2⟩
  · exact Option.noConfusion h
  rcases df2 with _ | ⟨b, df3⟩
  · simp only [parseDayRest] at h
    split_ifs at h with h1
    · injection h with hd
      simp only [inRange, Bool.and_eq_true, decide_eq_true_eq] at h1
      obtain ⟨ha1, ha2⟩ := h1
      have hda : digitVal a = a.toNat - 48 := rfl
      have hd2 : d = a.toNat - 48 := by rw [← hd, hda]
      refine ⟨by omega, by omega, Or.inr ⟨by omega, ?_⟩⟩
      have hch : digitChar d = a := by
        apply char_eq_of_toNat_eq
        rw [digitChar_toNat]
        omega
      rw [hch]
  rcases df3 with _ | ⟨c, df4⟩
  · have h2 : parseDay2 a b = some d := h
    obtain ⟨hd1, hd31, hac, hbc⟩ := parseDay2_inv h2
    refine ⟨hd1, hd31, Or.inl ?_⟩
    rw [hac, hbc]
    rfl
  · exact Option.noConfusion h

/-- Inversion of the month-day pattern: the month is a padded pair or a
single digit, followed by a hyphen and the day remainder. -/
theorem parseMD_inv {cs : List Char} {m d : Nat} (h : parseMD cs = some (m, d)) :
    ∃ mf df, cs = mf ++ '-' :: df ∧
      ((1 ≤ m ∧ m ≤ 12 ∧ mf = pad2c m) ∨ (1 ≤ m ∧ m ≤ 9 ∧ mf = [digitChar m])) ∧
      parseDayRest df = some d := by
  rcases cs with _ | ⟨a, cs2⟩
  · exact Option.noConfusion h
  rcases cs2 with _ | ⟨b, rest⟩
  · exact Option.noConfusion h
  simp only [parseMD] at h
  by_cases hb : b = '-'
  · rw [if_pos hb] at h
    by_cases ha : inRange a 49 57 = true
    · rw [if_pos ha] at h
      cases hpd : parseDayRest rest with
      | none =>
        rw [hpd] at h
        exact Option.noConfusion h
      | some d2 =>
        rw [hpd] at h
        simp only [Option.map_some', Option.some.injEq, Prod.mk.injEq] at h
        obtain ⟨hm, hd⟩ := h
        simp only [inRange, Bool.and_eq_true, decide_eq_true_eq] at ha
        obtain ⟨ha1, ha2⟩ := ha
        have hda : digitVal a = a.toNat - 48 := rfl
        refine ⟨[a], rest, by rw [hb]; rfl, Or.inr ⟨by omega, by omega, ?_⟩, by rw [hpd, hd]⟩
        have hch : digitChar m = a := by
          apply char_eq_of_toNat_eq
          rw [digitChar_toNat]
          omega
        rw [hch]
    · rw [if_neg ha] at h
      exact Option.noConfusion h
  · rw [if_neg hb] at h
    cases hpm : parseMonth2 a b with
    | none =>
      rw [hpm] at h
      rcases rest with _ | ⟨c, rest2⟩ <;> exact Option.noConfusion h
    | some m2 =>
      rw [hpm] at h
      rcases rest with _ | ⟨c, rest2⟩
      · exact Option.noConfusion h
      have h2 : (if c = '-' then Option.map (fun dd => (m2, dd)) (parseDayRest rest2)
          else none) = some (m, d) := h
      by_cases hc : c = '-'
      · rw [if_pos hc] at h2
        cases hpd : parseDayRest rest2 with
        | none =>
          rw [hpd] at h2
          exact Option.noConfusion h2
        | some d2 =>
          rw [hpd] at h2
          simp only [Option.map_some', Option.some.injEq, Prod.mk.injEq] at h2
          obtain ⟨hm, hd⟩ := h2
          obtain ⟨hm1, hm12, hac, hbc⟩ := parseMonth2_inv hpm
          subst hm
          refine ⟨[a, b], rest2, by rw [hc]; rfl, Or.inl ⟨hm1, hm12, ?_⟩, by rw [hpd, hd]⟩
          rw [hac, hbc]
          rfl
      · rw [if_neg hc] at h2
        exact Option.noConfusion h2

/-- Inversion of the full pattern: four year digits, a hyphen, then the
month-day remainder. -/
theorem parseYMD_inv {cs : List Char} {y m d : Nat} (hp : parseYMD cs = some (y, m, d)) :
    ∃ c1 c2 c3 c4 rest, cs = c1 :: c2 :: c3 :: c4 :: '-' :: rest ∧
      isDigitC c1 = true ∧ isDigitC c2 = true ∧ isDigitC c3 = true ∧ isDigitC c4 = true ∧
      y = 1000 * digitVal c1 + 100 * digitVal c2 + 10 * digitVal c3 + digitVal c4 ∧
      parseMD rest = some (m, d) := by
  rcases cs with _ | ⟨c1, cs⟩
  · exact Option.noConfusion hp
  rcases cs with _ | ⟨c2, cs⟩
  · exact Option.noConfusion hp
  rcases cs with _ | ⟨c3, cs⟩
  · exact Option.noConfusion hp
  rcases cs with _ | ⟨c4, cs⟩
  · exact Option.noConfusion hp
  rcases cs with _ | ⟨c5, rest⟩
  · exact Option.noConfusion hp
  simp only [parseYMD] at hp
  by_cases hcond : (c5 = '-' && isDigitC c1 && isDigitC c2 && isDigitC c3 && isDigitC c4) = true
  · rw [if_pos hcond] at hp
    simp only [Bool.and_eq_true, decide_eq_true_eq] at hcond
    obtain ⟨⟨⟨⟨hc5, h1⟩, h2⟩, h3⟩, h4⟩ := hcond
    subst hc5
    cases hpm : parseMD rest with
    | none =>
      rw [hpm] at hp
      exact Option.noConfusion hp
    | some md =>
      obtain ⟨m2, d2⟩ := md
      rw [hpm] at hp
      simp only [Option.some.injEq, Prod.mk.injEq] at hp
      obtain ⟨hy, hm, hd⟩ := hp
      exact ⟨c1, c2, c3, c4, rest, rfl, h1, h2, h3, h4, hy.symm, by rw [hpm, hm, hd]⟩
  · rw [if_neg hcond] at hp
    exact Option.noConfusion hp

/-- A string the validator accepts is a lenient rendering. -/
theorem lenient_of_validate {s : String} (h : validate_date s = true) : LenientYMD s := by
  obtain ⟨y, m, d, hp, hv⟩ := parse_of_validate h
  obtain ⟨c1, c2, c3, c4, rest, hcs, h1, h2, h3, h4, hy, hmd⟩ := parseYMD_inv hp
  obtain ⟨mf, df, hrest, hmonth, hdr⟩ := parseMD_inv hmd
  obtain ⟨hd1, hd31, hdf⟩ := parseDayRest_inv hdr
  have hvv : (1 ≤ y ∧ y ≤ 9999) ∧ (1 ≤ m ∧ m ≤ 12) ∧ (1 ≤ d ∧ d ≤ daysInMonth y m) := by
    simp only [isValidDateTriple, Bool.and_eq_true, decide_eq_true_eq] at hv
    obtain ⟨⟨⟨⟨⟨a1, a2⟩, a3⟩, a4⟩, a5⟩, a6⟩ := hv
    exact ⟨⟨a1, a2⟩, ⟨a3, a4⟩, ⟨a5, a6⟩⟩
  refine ⟨y, m, d, mf, df, hvv.1.1, hvv.1.2, hvv.2.1.1, hvv.2.1.2, hvv.2.2.1, hvv.2.2.2,
    ?_, ?_, ?_⟩
  · rcases hmonth with ⟨_, _, hmf⟩ | ⟨_, hm9, hmf⟩
    · exact Or.inl hmf
    · exact Or.inr ⟨hm9, hmf⟩
  · rcases hdf with hdf | ⟨hd9, hdf⟩
    · exact Or.inl hdf
    · exact Or.inr ⟨hd9, hdf⟩
  · have hb1 : digitVal c1 ≤ 9 := digitVal_le_9 h1
    have hb2 : digitVal c2 ≤ 9 := digitVal_le_9 h2
    have hb3 : digitVal c3 ≤ 9 := digitVal_le_9 h3
    have hb4 : digitVal c4 ≤ 9 := digitVal_le_9 h4
    have e1 : y / 1000 % 10 = digitVal c1 := by omega
    have e2 : y / 100 % 10 = digitVal c2 := by omega
    have e3 : y / 10 % 10 = digitVal c3 := by omega
    have e4 : y % 10 = digitVal c4 := by omega
    rw [hcs, hrest, pad4c, e1, e2, e3, e4,
      digitChar_of_isDigit h1, digitChar_of_isDigit h2,
      digitChar_of_isDigit h3, digitChar_of_isDigit h4]
    rfl

/-- C4 (amended): validate_date accepts exactly the strings presenting a
valid Gregorian calendar date with year 1-9999 as a four-digit year,
hyphen, month, hyphen, day, where the month and the day may each be
either two-digit zero-padded or unpadded single-digit — so every strict
`YYYY-MM-DD` date is accepted, but non-zero-padded variants such as
"2024-1-1" are accepted as well, and every other string (wrong
separators, impossible day or month, non-numeric content, trailing data)
is rejected. -/
theorem c4_validate_date (s : String) : validate_date s = true ↔ LenientYMD s :=
  ⟨lenient_of_validate, validate_of_lenient⟩

/-- C4 counterexample: the non-zero-padded string "2024-1-1" is not in
the strict `YYYY-MM-DD` grammar, yet validate_date returns true on it. -/
theorem c4_validate_date_counterexample :
    validate_date "2024-1-1" = true ∧ isStrictYMD "2024-1-1" = false :=
  ⟨by decide, by decide⟩
